import Mathlib

/-!
# Verification of the `@oxi/schema` validation combinator library

This file gives a shallow embedding of `src/mod.ts` (the schema combinator
engine) over a deep model of the JavaScript values the library inspects, and
proves the specified properties of the `parse` operation.

Modelling conventions:
* JavaScript runtime values are modelled by the inductive `Value`.  Numbers are
  restricted to integers plus an explicit NaN marker (`vNaN`); no claim below
  depends on non-integer arithmetic.  JS `Date` objects carry their time value,
  with `none` standing for an invalid date instant.
* Plain objects are modelled as association lists of own enumerable properties
  in insertion order; arrays as Lean lists.
* The parse results of the `opt` modifier use the `@oxi/option` collaborator,
  modelled by `vOpt` (present/absent).
* Functions of the external collaborators (`@oxi/core` type guards, the JS
  builtins `Number`, `String`, `JSON.stringify`, `Date`) are modelled right
  below; each carries a doc comment naming what it models.
-/

namespace OxiSchema

/-- Deep model of the JavaScript runtime values the library inspects:
`undefined`, `null`, booleans, numbers (integers plus an explicit NaN marker),
strings, `Date` objects (`some t` a valid instant with time value `t`, `none`
an invalid date), arrays, plain objects (own enumerable properties, insertion
order), and `@oxi/option` optional values as produced by the `opt` schema. -/
inductive Value where
  | vUndefined : Value
  | vNull : Value
  | vBool (b : Bool) : Value
  | vNum (n : Int) : Value
  | vNaN : Value
  | vStr (s : String) : Value
  | vDate (time : Option Int) : Value
  | vArr (elems : List Value) : Value
  | vObj (fields : List (String × Value)) : Value
  | vOpt (inner : Option Value) : Value

/-- Modelled collaborator (`@oxi/core` `getTypeOf`): the runtime type label of a
value, as used in the `actual` field of parse errors.  The labels for
`string`, `number`, `boolean`, `undefined` and plain objects are pinned by the
repository's test suite; the remaining labels follow the same convention. -/
def getTypeOf : Value → String
  | .vUndefined => "undefined"
  | .vNull => "null"
  | .vBool _ => "boolean"
  | .vNum _ => "number"
  | .vNaN => "number"
  | .vStr _ => "string"
  | .vDate _ => "date"
  | .vArr _ => "array"
  | .vObj _ => "object"
  | .vOpt _ => "object"

/-- Modelled collaborator (`@oxi/core` `isNil`): `null` or `undefined`. -/
def Value.isNil : Value → Bool
  | .vNull => true
  | .vUndefined => true
  | _ => false

/-- Modelled collaborator (JS `Array.prototype.includes` comparison,
SameValueZero): equality on primitive values; values of reference type
(dates, arrays, objects, option wrappers) are modelled as never equal, since
every literal in the model denotes a fresh object and the library only ever
compares against primitive (`string | number | boolean`) constants. -/
def sameValueZero : Value → Value → Bool
  | .vUndefined, .vUndefined => true
  | .vNull, .vNull => true
  | .vBool a, .vBool b => a == b
  | .vNum a, .vNum b => a == b
  | .vNaN, .vNaN => true
  | .vStr a, .vStr b => a == b
  | _, _ => false

/-- Modelled collaborator (JS strict equality `===`): as `sameValueZero`
except that NaN is not equal to itself. -/
def strictEq : Value → Value → Bool
  | .vNaN, _ => false
  | a, b => sameValueZero a b

/-- Modelled collaborator (JS boolean coercion `Boolean(x)` / truthiness). -/
def truthy : Value → Bool
  | .vUndefined => false
  | .vNull => false
  | .vBool b => b
  | .vNum n => n != 0
  | .vNaN => false
  | .vStr s => s ≠ ""
  | _ => true

/-- Escape of one character inside a JSON string literal.  Control characters
other than newline, tab and carriage return are not represented (no claim
depends on them). -/
def jsonEscapeChar (c : Char) : String :=
  if c = '"' then "\\\""
  else if c = '\\' then "\\\\"
  else if c = '\n' then "\\n"
  else if c = '\t' then "\\t"
  else if c = '\r' then "\\r"
  else String.singleton c

/-- Escape of a string body for a JSON string literal. -/
def jsonEscape (s : String) : String :=
  String.join (s.toList.map jsonEscapeChar)

/-- Rendering of a value in a nested (array-element or object-field) position
of a JSON text: there `undefined` renders as `null`; object fields holding
`undefined` are omitted by the caller before this function is applied.  The
rendering of `Date` and option objects is abstracted by placeholders (no
claim depends on it). -/
def jsonRenderNested : Value → String
  | .vUndefined => "null"
  | .vNull => "null"
  | .vNaN => "null"
  | .vBool b => if b then "true" else "false"
  | .vNum n => toString n
  | .vStr s => "\"" ++ jsonEscape s ++ "\""
  | .vDate _ => "\"(date)\""
  | .vOpt _ => "\x7b\x7d"
  | .vArr xs => "[" ++ String.intercalate ","
      (xs.attach.map fun x => jsonRenderNested x.1) ++ "]"
  | .vObj fs => "\x7b" ++ String.intercalate ","
      ((fs.filter fun p =>
          match p.2 with
          | .vUndefined => false
          | _ => true).attach.map fun p =>
        "\"" ++ jsonEscape p.1.1 ++ "\":" ++ jsonRenderNested p.1.2) ++ "\x7d"
decreasing_by
  all_goals simp_wf
  all_goals try
    (obtain ⟨⟨a, b⟩, hp⟩ := p
     have hmem : (a, b) ∈ fs := List.mem_of_mem_filter hp
     have h1 := List.sizeOf_lt_of_mem hmem
     simp only [Prod.mk.sizeOf_spec] at h1
     simp only
     omega)
  all_goals try
    (have hlt := List.sizeOf_lt_of_mem x.2
     omega)

/-- Modelled collaborator (the JS template interpolation of
`JSON.stringify(x)`, as used in the default messages of `oneOf` and `lit`):
renders the JSON text of `x`; a top-level `undefined`, for which
`JSON.stringify` returns no string, renders as `"undefined"` in the template. -/
def jsonRender : Value → String
  | .vUndefined => "undefined"
  | v => jsonRenderNested v

/-- Property read `data[key]` on a plain object: the value of the first
binding of `key`, `undefined` when the key is absent. -/
def objGet (fields : List (String × Value)) (k : String) : Value :=
  match fields.find? (fun p => p.1 == k) with
  | some p => p.2
  | none => .vUndefined

/-- Modelled collaborator (JS `Object.values`): the own enumerable property
values of a plain object. -/
def jsObjectValues (fields : List (String × Value)) : List Value :=
  fields.map Prod.snd

/-- Modelled collaborator (JS string coercion `String(x)`): arrays render as
their comma-joined elements with nil elements blank; the rendering of `Date`
and option objects is abstracted by placeholders (no claim depends on it). -/
def jsToString : Value → String
  | .vUndefined => "undefined"
  | .vNull => "null"
  | .vBool b => if b then "true" else "false"
  | .vNum n => toString n
  | .vNaN => "NaN"
  | .vStr s => s
  | .vDate _ => "(date)"
  | .vOpt _ => "[object Object]"
  | .vObj _ => "[object Object]"
  | .vArr xs => String.intercalate ","
      (xs.attach.map fun x =>
        match x with
        | ⟨.vNull, _⟩ => ""
        | ⟨.vUndefined, _⟩ => ""
        | ⟨y, hy⟩ => jsToString y)
decreasing_by
  all_goals simp_wf
  all_goals
    (have hlt := List.sizeOf_lt_of_mem hy
     omega)

/-- Modelled collaborator (JS string-to-number conversion, restricted to the
integer fragment of the model): an all-whitespace string converts to `0`, an
optionally signed decimal integer to its value, everything else to NaN. -/
def strToNumber (s : String) : Value :=
  let t := s.trim
  if t = "" then .vNum 0
  else
    let (sign, digits) :=
      if t.startsWith "-" then ((-1 : Int), t.drop 1)
      else if t.startsWith "+" then ((1 : Int), t.drop 1)
      else ((1 : Int), t)
    if digits ≠ "" ∧ digits.all Char.isDigit then
      .vNum (sign * (digits.toNat!))
    else .vNaN

/-- Modelled collaborator (JS numeric coercion `Number(x)`): valid dates
convert to their time value, arrays through their string rendering, other
objects to NaN. -/
def jsToNumber : Value → Value
  | .vUndefined => .vNaN
  | .vNull => .vNum 0
  | .vBool b => .vNum (if b then 1 else 0)
  | .vNum n => .vNum n
  | .vNaN => .vNaN
  | .vStr s => strToNumber s
  | .vDate (some t) => .vNum t
  | .vDate none => .vNaN
  | .vArr xs => strToNumber (jsToString (.vArr xs))
  | .vObj _ => .vNaN
  | .vOpt _ => .vNaN

/-- Modelled collaborator (the JS `Date` constructor applied to a string): out
of the scope of the embedding; only the parsable/unparsable dichotomy is
meaningful to the library, and the model maps every string to the invalid
instant.  No claim below depends on this choice. -/
def parseDateStr (_ : String) : Option Int := none

/-- Modelled collaborator (JS property-key coercion): a computed property key
is converted to a string when used to index an object. -/
def jsKeyString : Value → String
  | .vStr s => s
  | v => jsToString v

/-- The `ParseError` record of `src/mod.ts`: actual and expected type labels,
human-readable message, root-to-leaf path of property names / array indices,
and the offending input value. -/
structure ParseError where
  actual : String
  expected : String
  message : String
  path : List String
  value : Value

/-- The `err` constructor of `src/mod.ts`: derives `actual` from the value,
uses the supplied message unless it is absent or empty (JS `||`), and starts
with an empty path. -/
def err (expected : String) (value : Value) (message : Option String) : ParseError :=
  let actual := getTypeOf value
  { actual := actual
    expected := expected
    message :=
      match message with
      | some s => if s = "" then "Expected " ++ expected ++ ", but got " ++ actual else s
      | none => "Expected " ++ expected ++ ", but got " ++ actual
    path := []
    value := value }

/-- The `tryNum` pre-parse hook of `as`: JS numeric coercion. -/
def tryNum (data : Value) : Value := jsToNumber data

/-- The `tryStr` pre-parse hook of `as`: JS string coercion. -/
def tryStr (data : Value) : Value := .vStr (jsToString data)

/-- The `tryBool` pre-parse hook of `as`: a fixed case-insensitive vocabulary
for strings, truthiness for everything else. -/
def tryBool (data : Value) : Value :=
  match data with
  | .vStr s => .vBool (["true", "1", "yes", "on"].contains s.toLower)
  | d => .vBool (truthy d)

/-- The `tryDate` pre-parse hook of `as`: strings and numbers are passed to
the `Date` constructor, everything else is left unchanged. -/
def tryDate (data : Value) : Value :=
  match data with
  | .vStr s => .vDate (parseDateStr s)
  | .vNum n => .vDate (some n)
  | .vNaN => .vDate none
  | d => d

/-- Deep embedding of the schema trees built from the public constructors of
`src/mod.ts`.  Each constructor carries exactly the configuration the
corresponding TS constructor closes over; `sPre` is the wrapper produced by
`pre(schema, hook)` inside `as`, `sMap` the schema produced by `map`. -/
inductive SchemaExpr where
  | sAny : SchemaExpr
  | sStr (message : Option String) : SchemaExpr
  | sNum (message : Option String) : SchemaExpr
  | sBool (message : Option String) : SchemaExpr
  | sDate (message : Option String) : SchemaExpr
  | sList (child : SchemaExpr) (message : Option String) : SchemaExpr
  | sObj (props : List (String × SchemaExpr)) (message : Option String) : SchemaExpr
  | sRecord (keySch valSch : SchemaExpr) (message : Option String) : SchemaExpr
  | sUnion (schemas : List SchemaExpr) (message : Option String) : SchemaExpr
  | sTuple (schemas : List SchemaExpr) (message : Option String) : SchemaExpr
  | sEnum (values : List Value) (message : Option String) : SchemaExpr
  | sOneOf (values : List String) (message : Option String) : SchemaExpr
  | sLit (value : Value) (message : Option String) : SchemaExpr
  | sOpt (child : SchemaExpr) : SchemaExpr
  | sDef (child : SchemaExpr) (defaultValue : Value) (message : Option String) : SchemaExpr
  | sPipe (child : SchemaExpr) (steps : List (Value → Except String Value)) : SchemaExpr
  | sMap (child : SchemaExpr) (mapper : Value → Except String Value) : SchemaExpr
  | sPre (hook : Value → Value) (child : SchemaExpr) : SchemaExpr

/-- The `type` tag of a schema, as read by error construction and by `as`;
`map` and `pre` inherit the tag of the schema they wrap (object spread /
`const type = schema.type` in the source). -/
def typeTag : SchemaExpr → String
  | .sAny => "unknown"
  | .sStr _ => "string"
  | .sNum _ => "number"
  | .sBool _ => "boolean"
  | .sDate _ => "date"
  | .sList _ _ => "list"
  | .sObj _ _ => "object"
  | .sRecord _ _ _ => "record"
  | .sUnion _ _ => "union"
  | .sTuple _ _ => "tuple"
  | .sEnum _ _ => "enum"
  | .sOneOf _ _ => "oneOf"
  | .sLit _ _ => "literal"
  | .sOpt _ => "optional"
  | .sDef _ _ _ => "default"
  | .sPipe _ _ => "pipe"
  | .sMap c _ => typeTag c
  | .sPre _ c => typeTag c

/-- The body of `oneOf(values).parse` together with the closed-over `message`
parameter it mutates: `message ??= ...` assigns the computed default — which
embeds the current input — to the captured variable on the first failing
call, so the updated cell is returned alongside the result and is fed back in
on the next call to the same schema object. -/
def oneOfParseCell (values : List String) (cell : Option String) (data : Value) :
    Except ParseError Value × Option String :=
  if (match data with
      | .vStr s => values.contains s
      | _ => false) then
    (.ok data, cell)
  else
    let msg := cell.getD
      ("Expected one of " ++ jsonRender (.vArr (values.map Value.vStr)) ++
        ", but got " ++ jsonRender data)
    (.error (err "oneOf" data (some msg)), some msg)

/-- The body of `lit(value).parse` together with the closed-over `message`
parameter it mutates with `message ??= ...`, exactly as in `oneOfParseCell`;
on success it returns the configured literal itself. -/
def litParseCell (value : Value) (cell : Option String) (data : Value) :
    Except ParseError Value × Option String :=
  if strictEq data value then
    (.ok value, cell)
  else
    let msg := cell.getD
      ("Expected " ++ jsonRender value ++ ", but got " ++ jsonRender data)
    (.error (err "literal" data (some msg)), some msg)

/-- The step loop inside `pipe(schema, ...pipeline).parse`: threads the value
through the steps; a failing step's string message is converted by
`mapErr` into `err("pipe", acc, message)` where `acc` is the value the step
received. -/
def runPipeline (steps : List (Value → Except String Value)) (acc : Value) :
    Except ParseError Value :=
  match steps with
  | [] => .ok acc
  | step :: rest =>
    match step acc with
    | .error msg => .error (err "pipe" acc (some msg))
    | .ok next => runPipeline rest next

mutual

/-- The `parse` operation of a schema, per `src/mod.ts`.  It models a single
`parse` call on a freshly constructed schema: the `oneOf` and `lit` cases run
their stateful bodies on the initial (construction-time) value of the
`message` cell — the cross-call behaviour of that cell is the subject of
`oneOfParseCell` / `litParseCell` directly. -/
def parse : SchemaExpr → Value → Except ParseError Value
  | .sAny, v => .ok v
  | .sStr m, v =>
    match v with
    | .vStr s => .ok (.vStr s)
    | _ => .error (err "string" v m)
  | .sNum m, v =>
    match v with
    | .vNum n => .ok (.vNum n)
    | .vNaN => .ok .vNaN
    | _ => .error (err "number" v m)
  | .sBool m, v =>
    match v with
    | .vBool b => .ok (.vBool b)
    | _ => .error (err "boolean" v m)
  | .sDate m, v =>
    match v with
    | .vDate (some t) => .ok (.vDate (some t))
    | _ => .error (err "date" v m)
  | .sList c m, v =>
    match v with
    | .vArr xs =>
      match parseItems c xs 0 with
      | .error e => .error e
      | .ok rs => .ok (.vArr rs)
    | _ => .error (err "list" v m)
  | .sObj props m, v =>
    match v with
    | .vObj fields =>
      match parseProps props fields with
      | .error e => .error e
      | .ok out => .ok (.vObj out)
    | _ => .error (err "object" v m)
  | .sRecord ks vs m, v =>
    match v with
    | .vObj fields =>
      match parseRecordFields ks vs fields with
      | .error e => .error e
      | .ok out => .ok (.vObj out)
    | _ => .error (err "record" v m)
  | .sUnion ss m, v =>
    match parseAlts ss v with
    | some r => .ok r
    | none => .error (err (String.intercalate " | " (ss.map typeTag)) v m)
  | .sTuple ss m, v =>
    match v with
    | .vArr xs =>
      if xs.length = ss.length then
        match parseTupleItems ss xs 0 with
        | .error e => .error e
        | .ok rs => .ok (.vArr rs)
      else .error (err "tuple" v m)
    | _ => .error (err "tuple" v m)
  | .sEnum vals m, v =>
    if vals.any (fun w => sameValueZero w v) then .ok v
    else .error (err "enum" v m)
  | .sOneOf vals m, v => (oneOfParseCell vals m v).1
  | .sLit x m, v => (litParseCell x m v).1
  | .sOpt c, v =>
    if v.isNil then .ok (.vOpt none)
    else
      match parse c v with
      | .error e => .error e
      | .ok r => .ok (.vOpt (some r))
  | .sDef c d _, v =>
    if v.isNil then .ok d
    else parse c v
  | .sPipe c steps, v =>
    match parse c v with
    | .error e => .error e
    | .ok value => runPipeline steps value
  | .sMap c f, v =>
    match parse c v with
    | .error e => .error e
    | .ok value =>
      match f value with
      | .ok r => .ok r
      | .error msg => .error (err (typeTag c) value (some msg))
  | .sPre hook c, v => parse c (hook v)
termination_by s v => (sizeOf s, 0)
decreasing_by
  all_goals simp_wf
  all_goals
    first
      | (apply Prod.Lex.right
         omega)
      | (apply Prod.Lex.left
         first
           | omega
           | (have h1 : 0 < sizeOf m := by cases m <;> simp <;> omega
              omega))

/-- The element loop of `list(schema).parse`: validates elements in index
order, prepending the failing index (rendered as a string) to the first
error's path; `i` is the index of the first element of `xs` in the original
array. -/
def parseItems (c : SchemaExpr) : List Value → Nat → Except ParseError (List Value)
  | [], _ => .ok []
  | x :: xs, i =>
    match parse c x with
    | .error e => .error { e with path := toString i :: e.path }
    | .ok r =>
      match parseItems c xs (i + 1) with
      | .error e => .error e
      | .ok rs => .ok (r :: rs)
termination_by xs i => (sizeOf c, xs.length)
decreasing_by
  all_goals simp_wf
  all_goals
    first
      | (apply Prod.Lex.right
         omega)
      | (apply Prod.Lex.left
         first
           | omega
           | (have h1 : 0 < sizeOf m := by cases m <;> simp <;> omega
              omega))

/-- The position loop of `tuple(schemas).parse`: validates position by
position (called only when the lengths match), prepending the failing index
to the first error's path. -/
def parseTupleItems : List SchemaExpr → List Value → Nat → Except ParseError (List Value)
  | [], _, _ => .ok []
  | _ :: _, [], _ => .ok []
  | s :: ss, x :: xs, i =>
    match parse s x with
    | .error e => .error { e with path := toString i :: e.path }
    | .ok r =>
      match parseTupleItems ss xs (i + 1) with
      | .error e => .error e
      | .ok rs => .ok (r :: rs)
termination_by ss xs i => (sizeOf ss, xs.length)
decreasing_by
  all_goals simp_wf
  all_goals
    first
      | (apply Prod.Lex.right
         omega)
      | (apply Prod.Lex.left
         first
           | omega
           | (have h1 : 0 < sizeOf m := by cases m <;> simp <;> omega
              omega))

/-- The property loop of `obj(props).parse`: iterates the declared properties
in declaration order, reading `input[key]` (absent keys read as `undefined`),
prepending the failing key to the first error's path, and building the output
object from exactly the declared keys. -/
def parseProps : List (String × SchemaExpr) → List (String × Value) →
    Except ParseError (List (String × Value))
  | [], _ => .ok []
  | (k, c) :: ps, fields =>
    match parse c (objGet fields k) with
    | .error e => .error { e with path := k :: e.path }
    | .ok r =>
      match parseProps ps fields with
      | .error e => .error e
      | .ok rest => .ok ((k, r) :: rest)
termination_by ps fields => (sizeOf ps, 0)
decreasing_by
  all_goals simp_wf
  all_goals
    first
      | (apply Prod.Lex.right
         omega)
      | (apply Prod.Lex.left
         first
           | omega
           | (have h1 : 0 < sizeOf m := by cases m <;> simp <;> omega
              omega))

/-- The key loop of `record(key, value).parse`: iterates the input's own
keys, validating the key with the key schema and the value with the value
schema, prepending the raw key to whichever fails first; output keys are the
(string-coerced) parsed keys. -/
def parseRecordFields (ks vs : SchemaExpr) : List (String × Value) →
    Except ParseError (List (String × Value))
  | [] => .ok []
  | (k, x) :: fields =>
    match parse ks (.vStr k) with
    | .error e => .error { e with path := k :: e.path }
    | .ok kr =>
      match parse vs x with
      | .error e => .error { e with path := k :: e.path }
      | .ok vr =>
        match parseRecordFields ks vs fields with
        | .error e => .error e
        | .ok rest => .ok ((jsKeyString kr, vr) :: rest)
termination_by fields => (sizeOf ks + sizeOf vs + 1, fields.length)
decreasing_by
  all_goals simp_wf
  all_goals
    first
      | (apply Prod.Lex.right
         omega)
      | (apply Prod.Lex.left
         first
           | omega
           | (have h1 : 0 < sizeOf m := by cases m <;> simp <;> omega
              omega))

/-- The alternative loop of `union(schemas).parse`: the first success, if
any, in declared order. -/
def parseAlts : List SchemaExpr → Value → Option Value
  | [], _ => none
  | s :: ss, v =>
    match parse s v with
    | .ok r => some r
    | .error _ => parseAlts ss v
termination_by ss v => (sizeOf ss, 0)
decreasing_by
  all_goals simp_wf
  all_goals
    first
      | (apply Prod.Lex.right
         omega)
      | (apply Prod.Lex.left
         first
           | omega
           | (have h1 : 0 < sizeOf m := by cases m <;> simp <;> omega
              omega))

end

/-- The `as` coercion wrapper of `src/mod.ts`: switches on the schema's
`type` tag, wrapping the four primitive kinds with their pre-parse hook via
`pre(schema, hook)` (modelled by `sPre`); any other tag throws
`Error("Cannot coerce ...")` at schema-construction time, modelled by the
`Except.error` channel of the construction function itself. -/
def as (s : SchemaExpr) : Except String SchemaExpr :=
  match typeTag s with
  | "number" => .ok (.sPre tryNum s)
  | "string" => .ok (.sPre tryStr s)
  | "boolean" => .ok (.sPre tryBool s)
  | "date" => .ok (.sPre tryDate s)
  | t => .error ("Cannot coerce \"" ++ t ++ "\" to a primitive type")

/-- Modelled from the spec: `Schema.partial` is exercised by the test suite
but absent from `src/mod.ts`; per spec §4.4 it "builds a new object schema
where every property schema is wrapped to also accept absence (equivalent to
applying the optional modifier to each child)".  This function performs that
wrapping on an object schema's property map. -/
def optionalizeProps (props : List (String × SchemaExpr)) : List (String × SchemaExpr) :=
  props.map fun p => (p.1, .sOpt p.2)

/-- Modelled from the spec: the object schema produced by `Schema.partial`
from an object schema with property map `props` and message `m`. -/
def partialObjSchema (props : List (String × SchemaExpr)) (m : Option String) : SchemaExpr :=
  .sObj (optionalizeProps props) m

/-- Written from the words of the pipeline claim, for comparison with the
source loop `runPipeline`: thread the value through the steps in declared
order, each step receiving the previous step's success value; the first
failing step short-circuits the rest and yields a `ParseError` tagged
`"pipe"` whose `value` is the value at the point of failure and whose
`message` is the step's returned string — except that an empty returned
string falls back to the default `"Expected pipe, but got {actual}"`
message. -/
def pipeClaimRun (steps : List (Value → Except String Value)) (x : Value) :
    Except ParseError Value :=
  match steps with
  | [] => .ok x
  | step :: rest =>
    match step x with
    | .ok y => pipeClaimRun rest y
    | .error msg =>
      .error
        { actual := getTypeOf x
          expected := "pipe"
          message :=
            if msg = "" then "Expected pipe, but got " ++ getTypeOf x else msg
          path := []
          value := x }

/-- A JS `Date` object with its reference identity made explicit: `ref` is
the object's identity, `time` its time value (`none` = invalid instant).
Used to state that the date schema re-wraps its input into a fresh object. -/
structure DateObj where
  ref : Nat
  time : Option Int

/-- The body of `date(message).parse` on a `Date`-object input, with object
identity tracked: `new Date(data)` allocates a fresh object (identity
`fresh`, supplied by the allocator) carrying the same time value; an invalid
input instant fails the `isDate` guard. -/
def dateParseObj (m : Option String) (fresh : Nat) (d : DateObj) :
    Except ParseError DateObj :=
  match d.time with
  | some t => .ok { ref := fresh, time := some t }
  | none => .error (err "date" (.vDate none) m)

/-- The runtime object the TypeScript compiler produces for the numeric enum
`enum User { Admin, User }`: forward mappings from member names to values
and reverse mappings from values to names (integer-like keys enumerate
first). -/
def userEnumRuntime : List (String × Value) :=
  [("0", .vStr "Admin"), ("1", .vStr "User"),
   ("Admin", .vNum 0), ("User", .vNum 1)]

/-- The schema `enum(e)` built on the own-property values of the runtime
object `e`, as `_enum` does with `Object.values(e)`. -/
def enumSchemaOf (e : List (String × Value)) (m : Option String) : SchemaExpr :=
  .sEnum (jsObjectValues e) m

/-- An error `e` is the child error `e₀` with exactly the segment `seg`
prepended to its path and nothing else changed. -/
def PathPrepends (seg : String) (e e₀ : ParseError) : Prop :=
  e.actual = e₀.actual ∧ e.expected = e₀.expected ∧ e.message = e₀.message ∧
    e.value = e₀.value ∧ e.path = seg :: e₀.path

/-- A schema at which a failure originates (per the path-accumulation claim):
a primitive type check, a membership check (`enum`, `oneOf`, `lit`), or a
union. -/
def IsOriginSchema : SchemaExpr → Prop
  | .sStr _ => True
  | .sNum _ => True
  | .sBool _ => True
  | .sDate _ => True
  | .sEnum _ _ => True
  | .sOneOf _ _ => True
  | .sLit _ _ => True
  | .sUnion _ _ => True
  | _ => False

theorem parseItems_error {c : SchemaExpr} {xs : List Value} {i : Nat} {e : ParseError}
    (h : parseItems c xs i = .error e) :
    ∃ j, ∃ hj : j < xs.length, ∃ e₀,
      parse c (xs.get ⟨j, hj⟩) = .error e₀ ∧
      e = { e₀ with path := toString (i + j) :: e₀.path } := by
  induction xs generalizing i with
  | nil => simp [parseItems] at h
  | cons x xs ih =>
    rw [parseItems] at h
    cases hx : parse c x with
    | error e₀ =>
      rw [hx] at h
      refine ⟨0, by simp, e₀, hx, ?_⟩
      simp only [Except.error.injEq] at h
      simpa using h.symm
    | ok r =>
      rw [hx] at h
      cases hrest : parseItems c xs (i + 1) with
      | error e' =>
        rw [hrest] at h
        simp only [Except.error.injEq] at h
        subst h
        obtain ⟨j, hj, e₀, hp, he⟩ := ih hrest
        refine ⟨j + 1, by simpa using hj, e₀, by simpa using hp, ?_⟩
        have : i + 1 + j = i + (j + 1) := by omega
        rw [he, this]
      | ok rs => rw [hrest] at h; simp at h

theorem parseItems_ok_length {c : SchemaExpr} {xs : List Value} {i : Nat}
    {rs : List Value} (h : parseItems c xs i = .ok rs) :
    rs.length = xs.length := by
  induction xs generalizing i rs with
  | nil => simp [parseItems] at h; simp [← h]
  | cons x xs ih =>
    rw [parseItems] at h
    cases hx : parse c x with
    | error e₀ => rw [hx] at h; simp at h
    | ok r =>
      rw [hx] at h
      cases hrest : parseItems c xs (i + 1) with
      | error e' => rw [hrest] at h; simp at h
      | ok rs' =>
        rw [hrest] at h
        simp only [Except.ok.injEq] at h
        subst h
        simpa using ih hrest

theorem parseItems_ok_get {c : SchemaExpr} {xs : List Value} {i : Nat}
    {rs : List Value} (h : parseItems c xs i = .ok rs) :
    ∀ j (hj : j < xs.length) (hj' : j < rs.length),
      parse c (xs.get ⟨j, hj⟩) = .ok (rs.get ⟨j, hj'⟩) := by
  induction xs generalizing i rs with
  | nil => intro j hj; simp at hj
  | cons x xs ih =>
    rw [parseItems] at h
    cases hx : parse c x with
    | error e₀ => rw [hx] at h; simp at h
    | ok r =>
      rw [hx] at h
      cases hrest : parseItems c xs (i + 1) with
      | error e' => rw [hrest] at h; simp at h
      | ok rs' =>
        rw [hrest] at h
        simp only [Except.ok.injEq] at h
        subst h
        intro j hj hj'
        cases j with
        | zero => simpa using hx
        | succ j => simpa using ih hrest j (by simpa using hj) (by simpa using hj')

theorem parseItems_ok_of_forall {c : SchemaExpr} {xs : List Value} (i : Nat)
    (h : ∀ j (hj : j < xs.length), ∃ r, parse c (xs.get ⟨j, hj⟩) = .ok r) :
    ∃ rs, parseItems c xs i = .ok rs := by
  induction xs generalizing i with
  | nil => exact ⟨[], by simp [parseItems]⟩
  | cons x xs ih =>
    obtain ⟨r, hr⟩ := h 0 (by simp)
    simp only [List.get] at hr
    obtain ⟨rs, hrs⟩ := ih (i + 1) (fun j hj => by
      simpa using h (j + 1) (by simpa using hj))
    exact ⟨r :: rs, by rw [parseItems, hr, hrs]⟩

theorem parseItems_first_error {c : SchemaExpr} {xs : List Value} (i : Nat)
    {j : Nat} (hj : j < xs.length) {e : ParseError}
    (hok : ∀ k (hk : k < j), ∃ r, parse c (xs.get ⟨k, Nat.lt_trans hk hj⟩) = .ok r)
    (herr : parse c (xs.get ⟨j, hj⟩) = .error e) :
    parseItems c xs i = .error { e with path := toString (i + j) :: e.path } := by
  induction xs generalizing i j with
  | nil => simp at hj
  | cons x xs ih =>
    cases j with
    | zero =>
      simp only [List.get] at herr
      rw [parseItems, herr]
      simp
    | succ j =>
      obtain ⟨r, hr⟩ := hok 0 (by omega)
      simp only [List.get] at hr
      rw [parseItems, hr]
      have hj' : j < xs.length := by simpa using hj
      have := ih (i + 1) hj' (fun k hk => by
        simpa using hok (k + 1) (by omega)) (by simpa using herr)
      rw [this]
      have : i + 1 + j = i + (j + 1) := by omega
      rw [this]

theorem parseProps_error {ps : List (String × SchemaExpr)}
    {fields : List (String × Value)} {e : ParseError}
    (h : parseProps ps fields = .error e) :
    ∃ j, ∃ hj : j < ps.length, ∃ e₀,
      parse (ps.get ⟨j, hj⟩).2 (objGet fields (ps.get ⟨j, hj⟩).1) = .error e₀ ∧
      e = { e₀ with path := (ps.get ⟨j, hj⟩).1 :: e₀.path } := by
  induction ps with
  | nil => simp [parseProps] at h
  | cons p ps ih =>
    obtain ⟨k, c⟩ := p
    rw [parseProps] at h
    cases hx : parse c (objGet fields k) with
    | error e₀ =>
      rw [hx] at h
      refine ⟨0, by simp, e₀, by simpa using hx, ?_⟩
      simp only [Except.error.injEq] at h
      simpa using h.symm
    | ok r =>
      rw [hx] at h
      cases hrest : parseProps ps fields with
      | error e' =>
        rw [hrest] at h
        simp only [Except.error.injEq] at h
        subst h
        obtain ⟨j, hj, e₀, hp, he⟩ := ih hrest
        exact ⟨j + 1, by simpa using hj, e₀, by simpa using hp, by simpa using he⟩
      | ok rs => rw [hrest] at h; simp at h

theorem parseProps_ok_shape {ps : List (String × SchemaExpr)}
    {fields : List (String × Value)} {out : List (String × Value)}
    (h : parseProps ps fields = .ok out) :
    out.length = ps.length ∧
    ∀ j (hj : j < ps.length) (hj' : j < out.length),
      (out.get ⟨j, hj'⟩).1 = (ps.get ⟨j, hj⟩).1 ∧
      parse (ps.get ⟨j, hj⟩).2 (objGet fields (ps.get ⟨j, hj⟩).1) =
        .ok (out.get ⟨j, hj'⟩).2 := by
  induction ps generalizing out with
  | nil =>
    simp [parseProps] at h
    subst h
    simp
  | cons p ps ih =>
    obtain ⟨k, c⟩ := p
    rw [parseProps] at h
    cases hx : parse c (objGet fields k) with
    | error e₀ => rw [hx] at h; simp at h
    | ok r =>
      rw [hx] at h
      cases hrest : parseProps ps fields with
      | error e' => rw [hrest] at h; simp at h
      | ok rest =>
        rw [hrest] at h
        simp only [Except.ok.injEq] at h
        subst h
        obtain ⟨hlen, hpt⟩ := ih hrest
        refine ⟨by simpa using hlen, ?_⟩
        intro j hj hj'
        cases j with
        | zero => simpa using hx
        | succ j =>
          have := hpt j (by simpa using hj) (by simpa using hj')
          simpa using this

theorem parseProps_ok_of_forall {ps : List (String × SchemaExpr)}
    {fields : List (String × Value)}
    (h : ∀ p ∈ ps, ∃ r, parse p.2 (objGet fields p.1) = .ok r) :
    ∃ out, parseProps ps fields = .ok out := by
  induction ps with
  | nil => exact ⟨[], by simp [parseProps]⟩
  | cons p ps ih =>
    obtain ⟨k, c⟩ := p
    obtain ⟨r, hr⟩ := h (k, c) (by simp)
    obtain ⟨out, hout⟩ := ih (fun q hq => h q (by simp [hq]))
    exact ⟨(k, r) :: out, by rw [parseProps]; simp only at hr; rw [hr, hout]⟩

theorem parseProps_first_error {ps : List (String × SchemaExpr)}
    {fields : List (String × Value)} {j : Nat} (hj : j < ps.length)
    {e : ParseError}
    (hok : ∀ k (hk : k < j),
      ∃ r, parse (ps.get ⟨k, Nat.lt_trans hk hj⟩).2
        (objGet fields (ps.get ⟨k, Nat.lt_trans hk hj⟩).1) = .ok r)
    (herr : parse (ps.get ⟨j, hj⟩).2 (objGet fields (ps.get ⟨j, hj⟩).1) = .error e) :
    parseProps ps fields = .error { e with path := (ps.get ⟨j, hj⟩).1 :: e.path } := by
  induction ps generalizing j with
  | nil => simp at hj
  | cons p ps ih =>
    obtain ⟨k, c⟩ := p
    cases j with
    | zero =>
      simp only [List.get] at herr
      rw [parseProps]
      rw [herr]
      simp
    | succ j =>
      obtain ⟨r, hr⟩ := hok 0 (by omega)
      simp only [List.get] at hr
      rw [parseProps]
      rw [hr]
      have hj' : j < ps.length := by simpa using hj
      have := ih hj' (fun k' hk' => by simpa using hok (k' + 1) (by omega))
        (by simpa using herr)
      rw [this]
      simp

theorem parseTupleItems_error {ss : List SchemaExpr} {xs : List Value} {i : Nat}
    {e : ParseError} (h : parseTupleItems ss xs i = .error e) :
    ∃ j, ∃ hj : j < ss.length, ∃ hj' : j < xs.length, ∃ e₀,
      parse (ss.get ⟨j, hj⟩) (xs.get ⟨j, hj'⟩) = .error e₀ ∧
      e = { e₀ with path := toString (i + j) :: e₀.path } := by
  induction ss generalizing xs i with
  | nil => simp [parseTupleItems] at h
  | cons s ss ih =>
    cases xs with
    | nil => simp [parseTupleItems] at h
    | cons x xs =>
      rw [parseTupleItems] at h
      cases hx : parse s x with
      | error e₀ =>
        rw [hx] at h
        refine ⟨0, by simp, by simp, e₀, hx, ?_⟩
        simp only [Except.error.injEq] at h
        simpa using h.symm
      | ok r =>
        rw [hx] at h
        cases hrest : parseTupleItems ss xs (i + 1) with
        | error e' =>
          rw [hrest] at h
          simp only [Except.error.injEq] at h
          subst h
          obtain ⟨j, hj, hj', e₀, hp, he⟩ := ih hrest
          refine ⟨j + 1, by simpa using hj, by simpa using hj', e₀,
            by simpa using hp, ?_⟩
          have : i + 1 + j = i + (j + 1) := by omega
          rw [he, this]
        | ok rs => rw [hrest] at h; simp at h

theorem parseAlts_some {ss : List SchemaExpr} {v : Value} {r : Value}
    (h : parseAlts ss v = some r) :
    ∃ i, ∃ hi : i < ss.length,
      parse (ss.get ⟨i, hi⟩) v = .ok r ∧
      ∀ j (hj : j < i), ∃ e, parse (ss.get ⟨j, Nat.lt_trans hj hi⟩) v = .error e := by
  induction ss with
  | nil => simp [parseAlts] at h
  | cons s ss ih =>
    rw [parseAlts] at h
    cases hx : parse s v with
    | ok r' =>
      rw [hx] at h
      simp only [Option.some.injEq] at h
      subst h
      exact ⟨0, by simp, hx, by omega⟩
    | error e =>
      rw [hx] at h
      obtain ⟨i, hi, hok, hprev⟩ := ih h
      refine ⟨i + 1, by simpa using hi, by simpa using hok, ?_⟩
      intro j hj
      cases j with
      | zero => exact ⟨e, by simpa using hx⟩
      | succ j => simpa using hprev j (by omega)

theorem parseAlts_none {ss : List SchemaExpr} {v : Value}
    (h : parseAlts ss v = none) :
    ∀ s ∈ ss, ∃ e, parse s v = .error e := by
  induction ss with
  | nil => simp
  | cons s ss ih =>
    rw [parseAlts] at h
    cases hx : parse s v with
    | ok r => rw [hx] at h; simp at h
    | error e =>
      rw [hx] at h
      intro t ht
      rcases List.mem_cons.mp ht with h1 | h2
      · exact ⟨e, h1 ▸ hx⟩
      · exact ih h t h2

theorem parseAlts_first {ss : List SchemaExpr} {v : Value} {i : Nat}
    (hi : i < ss.length) {r : Value}
    (hprev : ∀ j (hj : j < i), ∃ e, parse (ss.get ⟨j, Nat.lt_trans hj hi⟩) v = .error e)
    (hok : parse (ss.get ⟨i, hi⟩) v = .ok r) :
    parseAlts ss v = some r := by
  induction ss generalizing i with
  | nil => simp at hi
  | cons s ss ih =>
    cases i with
    | zero =>
      simp only [List.get] at hok
      rw [parseAlts, hok]
    | succ i =>
      obtain ⟨e, he⟩ := hprev 0 (by omega)
      simp only [List.get] at he
      rw [parseAlts, he]
      exact ih (by simpa using hi) (fun j hj => by simpa using hprev (j + 1) (by omega))
        (by simpa using hok)

theorem parseAlts_none_of_forall {ss : List SchemaExpr} {v : Value}
    (h : ∀ s ∈ ss, ∃ e, parse s v = .error e) :
    parseAlts ss v = none := by
  induction ss with
  | nil => simp [parseAlts]
  | cons s ss ih =>
    obtain ⟨e, he⟩ := h s (by simp)
    rw [parseAlts, he]
    exact ih (fun t ht => h t (by simp [ht]))

theorem parseRecordFields_error {ks vs : SchemaExpr}
    {fields : List (String × Value)} {e : ParseError}
    (h : parseRecordFields ks vs fields = .error e) :
    ∃ k e₀, (∃ x, (k, x) ∈ fields) ∧
      e = { e₀ with path := k :: e₀.path } ∧
      (parse ks (.vStr k) = .error e₀ ∨
        ∃ x, (k, x) ∈ fields ∧ parse vs x = .error e₀) := by
  induction fields with
  | nil => simp [parseRecordFields] at h
  | cons f fields ih =>
    obtain ⟨k, x⟩ := f
    rw [parseRecordFields] at h
    cases hk : parse ks (.vStr k) with
    | error e₀ =>
      rw [hk] at h
      simp only [Except.error.injEq] at h
      subst h
      exact ⟨k, e₀, ⟨x, by simp⟩, rfl, Or.inl hk⟩
    | ok kr =>
      rw [hk] at h
      cases hv : parse vs x with
      | error e₀ =>
        rw [hv] at h
        simp only [Except.error.injEq] at h
        subst h
        exact ⟨k, e₀, ⟨x, by simp⟩, rfl, Or.inr ⟨x, by simp, hv⟩⟩
      | ok vr =>
        rw [hv] at h
        cases hrest : parseRecordFields ks vs fields with
        | error e' =>
          rw [hrest] at h
          simp only [Except.error.injEq] at h
          subst h
          obtain ⟨k', e₀, ⟨x', hx'⟩, he, hcase⟩ := ih hrest
          refine ⟨k', e₀, ⟨x', by simp [hx']⟩, he, ?_⟩
          rcases hcase with h1 | ⟨x'', hx'', h2⟩
          · exact Or.inl h1
          · exact Or.inr ⟨x'', by simp [hx''], h2⟩
        | ok rest => rw [hrest] at h; simp at h

theorem runPipeline_error_path {steps : List (Value → Except String Value)}
    {x : Value} {e : ParseError} (h : runPipeline steps x = .error e) :
    e.path = [] := by
  induction steps generalizing x with
  | nil => simp [runPipeline] at h
  | cons step rest ih =>
    rw [runPipeline] at h
    cases hs : step x with
    | error msg =>
      rw [hs] at h
      simp only [Except.error.injEq] at h
      subst h
      simp [err]
    | ok next =>
      rw [hs] at h
      exact ih h

theorem runPipeline_eq_claim (steps : List (Value → Except String Value))
    (x : Value) : runPipeline steps x = pipeClaimRun steps x := by
  induction steps generalizing x with
  | nil => simp [runPipeline, pipeClaimRun]
  | cons step rest ih =>
    rw [runPipeline, pipeClaimRun]
    cases hs : step x with
    | error msg => simp [err]
    | ok next => exact ih next

theorem path_empty_of_error_err {exp : String} {v : Value} {m : Option String}
    {e : ParseError}
    (h : (Except.error (err exp v m) : Except ParseError Value) = .error e) :
    e.path = [] := by
  simp only [Except.error.injEq] at h
  subst h
  simp [err]

/-- C1: an error carries an empty path at its point of origin (a primitive,
membership, union, or pipeline failure, or a composite schema's own type
mismatch), and each enclosing composite schema (list, tuple, object, record)
the error crosses prepends exactly one path segment — the element index
rendered as a string for list/tuple, the property key for object/record —
changing nothing else about the error, while the non-composite wrappers
(`opt`, `def`, `map`, `pre`/`as`, `pipe`) pass child errors through
unchanged; hence the delivered path lists segments in root-to-leaf order. -/
theorem path_accumulation_spec :
    (∀ s v e, IsOriginSchema s → parse s v = .error e → e.path = []) ∧
    (∀ c steps v e, parse (.sPipe c steps) v = .error e →
      parse c v = .error e ∨ e.path = []) ∧
    (∀ c m v e, (∀ xs, v ≠ .vArr xs) →
      parse (.sList c m) v = .error e → e.path = []) ∧
    (∀ c m xs e, parse (.sList c m) (.vArr xs) = .error e →
      ∃ j, ∃ hj : j < xs.length, ∃ e₀,
        parse c (xs.get ⟨j, hj⟩) = .error e₀ ∧ PathPrepends (toString j) e e₀) ∧
    (∀ ss m v e, (∀ xs, v = .vArr xs → xs.length ≠ ss.length) →
      parse (.sTuple ss m) v = .error e → e.path = []) ∧
    (∀ ss m xs e, xs.length = ss.length →
      parse (.sTuple ss m) (.vArr xs) = .error e →
      ∃ j, ∃ hj : j < ss.length, ∃ hj' : j < xs.length, ∃ e₀,
        parse (ss.get ⟨j, hj⟩) (xs.get ⟨j, hj'⟩) = .error e₀ ∧
        PathPrepends (toString j) e e₀) ∧
    (∀ props m v e, (∀ fs, v ≠ .vObj fs) →
      parse (.sObj props m) v = .error e → e.path = []) ∧
    (∀ props m fs e, parse (.sObj props m) (.vObj fs) = .error e →
      ∃ k c e₀, (k, c) ∈ props ∧ parse c (objGet fs k) = .error e₀ ∧
        PathPrepends k e e₀) ∧
    (∀ ks vs m v e, (∀ fs, v ≠ .vObj fs) →
      parse (.sRecord ks vs m) v = .error e → e.path = []) ∧
    (∀ ks vs m fs e, parse (.sRecord ks vs m) (.vObj fs) = .error e →
      ∃ k e₀, (∃ x, (k, x) ∈ fs) ∧ PathPrepends k e e₀ ∧
        (parse ks (.vStr k) = .error e₀ ∨
          ∃ x, (k, x) ∈ fs ∧ parse vs x = .error e₀)) ∧
    (∀ c v e, parse (.sOpt c) v = .error e → parse c v = .error e) ∧
    (∀ c d m v e, parse (.sDef c d m) v = .error e → parse c v = .error e) ∧
    (∀ c f v e, parse (.sMap c f) v = .error e →
      parse c v = .error e ∨ e.path = []) ∧
    (∀ hook c v e, parse (.sPre hook c) v = .error e →
      parse c (hook v) = .error e) := by
  refine ⟨?_, ?_, ?_, ?_, ?_, ?_, ?_, ?_, ?_, ?_, ?_, ?_, ?_, ?_⟩
  · intro s v e ho h
    cases s with
    | sStr m =>
      cases v <;> simp only [parse] at h <;>
        first
          | exact path_empty_of_error_err h
          | simp at h
    | sNum m =>
      cases v <;> simp only [parse] at h <;>
        first
          | exact path_empty_of_error_err h
          | simp at h
    | sBool m =>
      cases v <;> simp only [parse] at h <;>
        first
          | exact path_empty_of_error_err h
          | simp at h
    | sDate m =>
      cases v <;> try simp only [parse] at h
      case vDate t =>
        cases t <;> simp only [parse] at h
        · exact path_empty_of_error_err h
        · simp at h
      all_goals
        first
          | exact path_empty_of_error_err h
          | simp at h
    | sEnum vals m =>
      simp only [parse] at h
      split at h
      · simp at h
      · exact path_empty_of_error_err h
    | sOneOf vals m =>
      simp only [parse, oneOfParseCell] at h
      split at h
      · simp at h
      · exact path_empty_of_error_err h
    | sLit x m =>
      simp only [parse, litParseCell] at h
      split at h
      · simp at h
      · exact path_empty_of_error_err h
    | sUnion ss m =>
      simp only [parse] at h
      split at h
      · simp at h
      · exact path_empty_of_error_err h
    | _ => simp [IsOriginSchema] at ho
  · intro c steps v e h
    simp only [parse] at h
    split at h
    next e' heq =>
      left
      simp only [Except.error.injEq] at h
      subst h
      exact heq
    next val heq =>
      right
      exact runPipeline_error_path h
  · intro c m v e hne h
    cases v <;>
      first
        | exact absurd rfl (hne _)
        | (simp only [parse] at h
           exact path_empty_of_error_err h)
  · intro c m xs e h
    simp only [parse] at h
    split at h
    next e' heq =>
      simp only [Except.error.injEq] at h
      subst h
      obtain ⟨j, hj, e₀, hp, he⟩ := parseItems_error heq
      refine ⟨j, hj, e₀, hp, ?_⟩
      simp [PathPrepends, he]
    next rs heq => simp at h
  · intro ss m v e hne h
    cases v <;>
      first
        | (simp only [parse] at h
           exact path_empty_of_error_err h)
        | skip
    case vArr xs =>
      simp only [parse] at h
      rw [if_neg (hne xs rfl)] at h
      exact path_empty_of_error_err h
  · intro ss m xs e hlen h
    simp only [parse] at h
    rw [if_pos hlen] at h
    split at h
    next e' heq =>
      simp only [Except.error.injEq] at h
      subst h
      obtain ⟨j, hj, hj', e₀, hp, he⟩ := parseTupleItems_error heq
      refine ⟨j, hj, hj', e₀, hp, ?_⟩
      simp [PathPrepends, he]
    next rs heq => simp at h
  · intro props m v e hne h
    cases v <;>
      first
        | exact absurd rfl (hne _)
        | (simp only [parse] at h
           exact path_empty_of_error_err h)
  · intro props m fs e h
    simp only [parse] at h
    split at h
    next e' heq =>
      simp only [Except.error.injEq] at h
      subst h
      obtain ⟨j, hj, e₀, hp, he⟩ := parseProps_error heq
      refine ⟨(props.get ⟨j, hj⟩).1, (props.get ⟨j, hj⟩).2, e₀, ?_, hp, ?_⟩
      · have := List.get_mem props j hj
        simpa using this
      · simp [PathPrepends, he]
    next out heq => simp at h
  · intro ks vs m v e hne h
    cases v <;>
      first
        | exact absurd rfl (hne _)
        | (simp only [parse] at h
           exact path_empty_of_error_err h)
  · intro ks vs m fs e h
    simp only [parse] at h
    split at h
    next e' heq =>
      simp only [Except.error.injEq] at h
      subst h
      obtain ⟨k, e₀, hk, he, hcase⟩ := parseRecordFields_error heq
      exact ⟨k, e₀, hk, by simp [PathPrepends, he], hcase⟩
    next out heq => simp at h
  · intro c v e h
    simp only [parse] at h
    split at h
    · simp at h
    · split at h
      next e' heq =>
        simp only [Except.error.injEq] at h
        subst h
        exact heq
      next r heq => simp at h
  · intro c d m v e h
    simp only [parse] at h
    split at h
    · simp at h
    · exact h
  · intro c f v e h
    simp only [parse] at h
    split at h
    next e' heq =>
      left
      simp only [Except.error.injEq] at h
      subst h
      exact heq
    next val heq =>
      split at h
      next r heq2 => simp at h
      next msg heq2 =>
        right
        simp only [Except.error.injEq] at h
        subst h
        simp [err]
  · intro hook c v e h
    simp only [parse] at h
    exact h

/-- Witness for C1, at `list(str()).parse(["hello", 2])` from the test suite:
the delivered error is the element error with exactly the segment "1"
prepended. -/
theorem path_accumulation_spec_witness :
    ∃ j, ∃ hj : j < ([Value.vStr "hello", Value.vNum 2]).length, ∃ e₀,
      parse (.sStr none) (([Value.vStr "hello", Value.vNum 2]).get ⟨j, hj⟩) = .error e₀ ∧
      PathPrepends (toString j)
        { actual := "number", expected := "string",
          message := "Expected string, but got number",
          path := ["1"], value := .vNum 2 } e₀ :=
  path_accumulation_spec.2.2.2.1 (.sStr none) none
    [Value.vStr "hello", Value.vNum 2]
    { actual := "number", expected := "string",
      message := "Expected string, but got number",
      path := ["1"], value := .vNum 2 }
    (by simp [parse, parseItems, err, getTypeOf]
        decide)

/-- C2: the claim that `parse` results depend only on the current input and
the schema's construction arguments fails on the code: `oneOf` (and `lit`)
compute their default message with `message ??= ...`, which assigns to the
closed-over `message` variable on the first failing call; a later failing
call on the same schema object reuses the cached message — which embeds the
FIRST failing input — instead of building a fresh one.  Here
`oneOf(["foo"])` is given "a" and then "b": the second error's message still
says `"a"`, and differs from the message a fresh schema produces for "b". -/
theorem oneOf_message_state_dependence :
    ∃ e₂ e₃,
      (oneOfParseCell ["foo"]
        (oneOfParseCell ["foo"] none (.vStr "a")).2 (.vStr "b")).1 = .error e₂ ∧
      (oneOfParseCell ["foo"] none (.vStr "b")).1 = .error e₃ ∧
      e₂.message = "Expected one of [\"foo\"], but got \"a\"" ∧
      e₃.message = "Expected one of [\"foo\"], but got \"b\"" ∧
      e₂.message ≠ e₃.message := by
  refine ⟨_, _, rfl, rfl, ?_, ?_, ?_⟩ <;>
    simp [oneOfParseCell, jsonRender, jsonRenderNested, jsonEscape,
      jsonEscapeChar, err, getTypeOf] <;> decide

/-- C3: `union(schemas).parse(x)` succeeds iff some alternative succeeds; on
success it returns the success of the first (in declared order) succeeding
alternative; when every alternative fails it returns the single freshly
constructed `err`-error whose `expected` is the " | "-joined list of the
alternatives' type tags — with empty path, not derived from any child
error. -/
theorem union_parse_spec (ss : List SchemaExpr) (m : Option String) (v : Value)
    (hne : ss ≠ []) :
    ((∃ r, parse (.sUnion ss m) v = .ok r) ↔ ∃ s ∈ ss, ∃ r, parse s v = .ok r) ∧
    (∀ i (hi : i < ss.length) r,
      (∀ j (hj : j < i), ∃ e, parse (ss.get ⟨j, Nat.lt_trans hj hi⟩) v = .error e) →
      parse (ss.get ⟨i, hi⟩) v = .ok r →
      parse (.sUnion ss m) v = .ok r) ∧
    ((∀ s ∈ ss, ∃ e, parse s v = .error e) →
      parse (.sUnion ss m) v =
        .error (err (String.intercalate " | " (ss.map typeTag)) v m)) ∧
    (∀ e, parse (.sUnion ss m) v = .error e → e.path = []) := by
  refine ⟨⟨?_, ?_⟩, ?_, ?_, ?_⟩
  · rintro ⟨r, hr⟩
    simp only [parse] at hr
    split at hr
    next r' heq =>
      obtain ⟨i, hi, hok, _⟩ := parseAlts_some heq
      exact ⟨ss.get ⟨i, hi⟩, List.get_mem ss i hi, r', hok⟩
    next => simp at hr
  · rintro ⟨s, hs, r, hr⟩
    cases hpa : parseAlts ss v with
    | some r' => exact ⟨r', by simp only [parse]; rw [hpa]⟩
    | none =>
      obtain ⟨e, he⟩ := parseAlts_none hpa s hs
      rw [hr] at he
      simp at he
  · intro i hi r hprev hok
    have := parseAlts_first hi hprev hok
    simp only [parse]
    rw [this]
  · intro hall
    have := parseAlts_none_of_forall hall
    simp only [parse]
    rw [this]
  · intro e h
    simp only [parse] at h
    split at h
    · simp at h
    · exact path_empty_of_error_err h

/-- Witness for C3, at `union([str(), num()]).parse(true)` from the test
suite: every alternative fails, and the union error is the synthesized
`err("string | number", true, none)`. -/
theorem union_parse_spec_witness :
    parse (.sUnion [.sStr none, .sNum none] none) (.vBool true) =
      .error (err (String.intercalate " | "
        ([SchemaExpr.sStr none, SchemaExpr.sNum none].map typeTag))
        (.vBool true) none) :=
  (union_parse_spec [.sStr none, .sNum none] none (.vBool true)
      (by simp)).2.2.1
    (by
      intro s hs
      rcases List.mem_cons.mp hs with h1 | h2
      · subst h1
        exact ⟨err "string" (.vBool true) none, by simp [parse]⟩
      · rcases List.mem_cons.mp h2 with h3 | h4
        · subst h3
          exact ⟨err "number" (.vBool true) none, by simp [parse]⟩
        · simp at h4)

/-- C4: `list(schema).parse` — non-array input fails with the "list"-typed
error; an array whose elements all pass yields an ordered sequence of the
element results, of the same length, element i being the child's result on
x[i]; a first (lowest-index) failing element determines the result: its
error with the index (rendered as a string) prepended, independent of later
elements. -/
theorem list_parse_spec (c : SchemaExpr) (m : Option String) :
    (∀ v, (∀ xs, v ≠ .vArr xs) →
      parse (.sList c m) v = .error (err "list" v m)) ∧
    (∀ xs, (∀ j (hj : j < xs.length), ∃ r, parse c (xs.get ⟨j, hj⟩) = .ok r) →
      ∃ rs, parse (.sList c m) (.vArr xs) = .ok (.vArr rs) ∧
        rs.length = xs.length ∧
        ∀ j (hj : j < xs.length) (hj' : j < rs.length),
          parse c (xs.get ⟨j, hj⟩) = .ok (rs.get ⟨j, hj'⟩)) ∧
    (∀ xs j (hj : j < xs.length) e,
      (∀ k (hk : k < j), ∃ r, parse c (xs.get ⟨k, Nat.lt_trans hk hj⟩) = .ok r) →
      parse c (xs.get ⟨j, hj⟩) = .error e →
      parse (.sList c m) (.vArr xs) =
        .error { e with path := toString j :: e.path }) := by
  refine ⟨?_, ?_, ?_⟩
  · intro v hne
    cases v <;> first
      | exact absurd rfl (hne _)
      | simp [parse]
  · intro xs hall
    obtain ⟨rs, hrs⟩ := parseItems_ok_of_forall 0 hall
    refine ⟨rs, by simp only [parse]; rw [hrs], parseItems_ok_length hrs, ?_⟩
    exact parseItems_ok_get hrs
  · intro xs j hj e hok herr
    have := parseItems_first_error 0 hj hok herr
    simp only [parse]
    rw [this]
    simp

/-- Witness for C4, combining the three conjuncts at the test suite's inputs:
`list(str())` on `{}` (non-array), on `["hello","world"]` (all pass), and on
`["hello", 2]` (element 1 fails). -/
theorem list_parse_spec_witness :
    (parse (.sList (.sStr none) none) (.vObj []) =
      .error (err "list" (.vObj []) none)) ∧
    (∃ rs, parse (.sList (.sStr none) none)
        (.vArr [.vStr "hello", .vStr "world"]) = .ok (.vArr rs) ∧
      rs.length = ([Value.vStr "hello", Value.vStr "world"]).length ∧
      ∀ j (hj : j < ([Value.vStr "hello", Value.vStr "world"]).length)
        (hj' : j < rs.length),
        parse (.sStr none) (([Value.vStr "hello", Value.vStr "world"]).get ⟨j, hj⟩) =
          .ok (rs.get ⟨j, hj'⟩)) ∧
    (parse (.sList (.sStr none) none) (.vArr [.vStr "hello", .vNum 2]) =
      .error { err "string" (.vNum 2) none with
        path := toString 1 :: (err "string" (.vNum 2) none).path }) :=
  ⟨(list_parse_spec (.sStr none) none).1 (.vObj []) (by intro xs h; simp at h),
   (list_parse_spec (.sStr none) none).2.1 [.vStr "hello", .vStr "world"]
     (by
       intro j hj
       simp only [List.length_cons, List.length_nil] at hj
       interval_cases j
       · exact ⟨.vStr "hello", by simp [parse]⟩
       · exact ⟨.vStr "world", by simp [parse]⟩),
   (list_parse_spec (.sStr none) none).2.2 [.vStr "hello", .vNum 2] 1
     (by decide) (err "string" (.vNum 2) none)
     (by
       intro k hk
       interval_cases k
       exact ⟨.vStr "hello", by simp [parse]⟩)
     (by simp [parse])⟩

theorem optionalizeProps_length (props : List (String × SchemaExpr)) :
    (optionalizeProps props).length = props.length := by
  simp [optionalizeProps]

theorem optionalizeProps_get (props : List (String × SchemaExpr)) (j : Nat)
    (hj : j < props.length) (hj2 : j < (optionalizeProps props).length) :
    (optionalizeProps props).get ⟨j, hj2⟩ =
      ((props.get ⟨j, hj⟩).1, .sOpt (props.get ⟨j, hj⟩).2) := by
  simp [optionalizeProps, List.get_eq_getElem, List.getElem_map]

/-- C5: `obj(props).parse` on a plain-object input reads each declared key in
declaration order, an absent key being read as the nil input `undefined`; the
first failing property determines the result — its error with the property
key prepended; on success the result is a new object holding exactly the
declared keys in order, each mapped to its child's parse result, so every
input property not named in the schema is dropped. -/
theorem obj_parse_spec (props : List (String × SchemaExpr)) (m : Option String)
    (fields : List (String × Value)) :
    (∀ k, (∀ x, (k, x) ∉ fields) → objGet fields k = .vUndefined) ∧
    ((∀ p ∈ props, ∃ r, parse p.2 (objGet fields p.1) = .ok r) →
      ∃ out, parse (.sObj props m) (.vObj fields) = .ok (.vObj out) ∧
        out.length = props.length ∧
        (∀ j (hj : j < props.length) (hj' : j < out.length),
          (out.get ⟨j, hj'⟩).1 = (props.get ⟨j, hj⟩).1 ∧
          parse (props.get ⟨j, hj⟩).2 (objGet fields (props.get ⟨j, hj⟩).1) =
            .ok (out.get ⟨j, hj'⟩).2) ∧
        out.map Prod.fst = props.map Prod.fst) ∧
    (∀ j (hj : j < props.length) e,
      (∀ k (hk : k < j), ∃ r,
        parse (props.get ⟨k, Nat.lt_trans hk hj⟩).2
          (objGet fields (props.get ⟨k, Nat.lt_trans hk hj⟩).1) = .ok r) →
      parse (props.get ⟨j, hj⟩).2 (objGet fields (props.get ⟨j, hj⟩).1) = .error e →
      parse (.sObj props m) (.vObj fields) =
        .error { e with path := (props.get ⟨j, hj⟩).1 :: e.path }) := by
  refine ⟨?_, ?_, ?_⟩
  · intro k hk
    unfold objGet
    have : fields.find? (fun p => p.1 == k) = none := by
      rw [List.find?_eq_none]
      intro p hp
      simp only [beq_iff_eq]
      intro hpk
      apply hk p.2
      rw [← hpk]
      simpa using hp
    rw [this]
  · intro hall
    obtain ⟨out, hout⟩ := parseProps_ok_of_forall hall
    obtain ⟨hlen, hpt⟩ := parseProps_ok_shape hout
    refine ⟨out, by simp only [parse]; rw [hout], hlen, fun j hj hj' => hpt j hj hj', ?_⟩
    apply List.ext_get (by simp [hlen])
    intro n h1 h2
    simp only [List.get_eq_getElem, List.getElem_map]
    have := (hpt n (by simpa using h2) (by simpa using h1)).1
    simpa [List.get_eq_getElem] using this
  · intro j hj e hok herr
    have := parseProps_first_error hj hok herr
    simp only [parse]
    rw [this]

/-- Witness for C5, at `obj({name: str(), age: num()}).parse({name: "John"})`
from the test suite: the absent key `age` reads as `undefined`, and the first
failing property `age` yields its error with key "age" prepended. -/
theorem obj_parse_spec_witness :
    parse (.sObj [("name", .sStr none), ("age", .sNum none)] none)
        (.vObj [("name", .vStr "John")]) =
      .error { err "number" .vUndefined none with
        path := ([("name", SchemaExpr.sStr none), ("age", SchemaExpr.sNum none)].get
          ⟨1, by decide⟩).1 :: (err "number" .vUndefined none).path } :=
  (obj_parse_spec [("name", .sStr none), ("age", .sNum none)] none
      [("name", .vStr "John")]).2.2 1 (by decide) (err "number" .vUndefined none)
    (by
      intro k hk
      interval_cases k
      exact ⟨.vStr "John", by simp [parse, objGet]⟩)
    (by simp [parse, objGet] <;> decide)

/-- C6: `date().parse(d)` succeeds exactly when `d` is a valid date value —
non-date inputs and invalid instants are rejected with the "date"-typed
error — and on success returns a date value equal to the input; with object
identity tracked, the success is the freshly allocated `new Date(data)`,
distinct from the input object but carrying the same time value. -/
theorem date_parse_spec (m : Option String) :
    (∀ v, (∃ r, parse (.sDate m) v = .ok r) ↔ ∃ t, v = .vDate (some t)) ∧
    (∀ t, parse (.sDate m) (.vDate (some t)) = .ok (.vDate (some t))) ∧
    (∀ v, (∀ t, v ≠ .vDate (some t)) → parse (.sDate m) v = .error (err "date" v m)) ∧
    (∀ fresh d t, fresh ≠ d.ref → d.time = some t →
      dateParseObj m fresh d = .ok ⟨fresh, some t⟩ ∧
      (⟨fresh, some t⟩ : DateObj) ≠ d ∧
      (⟨fresh, some t⟩ : DateObj).time = d.time) := by
  refine ⟨?_, ?_, ?_, ?_⟩
  · intro v
    constructor
    · rintro ⟨r, hr⟩
      cases v with
      | vDate t =>
        cases t with
        | some t' => exact ⟨t', rfl⟩
        | none => simp [parse] at hr
      | _ => simp [parse] at hr
    · rintro ⟨t, rfl⟩
      exact ⟨.vDate (some t), by simp [parse]⟩
  · intro t
    simp [parse]
  · intro v hv
    cases v with
    | vDate t =>
      cases t with
      | some t' => exact absurd rfl (hv t')
      | none => simp [parse]
    | _ => simp [parse]
  · intro fresh d t hρ ht
    obtain ⟨r0, t0⟩ := d
    simp only at ht
    subst ht
    refine ⟨by simp [dateParseObj], ?_, rfl⟩
    simp only [ne_eq, DateObj.mk.injEq, not_and]
    intro hr
    exact absurd hr hρ

/-- Witness for C6: a valid date object with identity 0 and time 5, parsed
with allocator identity 1, yields a distinct object with equal time. -/
theorem date_parse_spec_witness :
    dateParseObj none 1 ⟨0, some 5⟩ = .ok ⟨1, some 5⟩ ∧
    (⟨1, some 5⟩ : DateObj) ≠ ⟨0, some 5⟩ ∧
    (⟨1, some 5⟩ : DateObj).time = (⟨0, some 5⟩ : DateObj).time :=
  (date_parse_spec none).2.2.2 1 ⟨0, some 5⟩ 5 (by decide) rfl

/-- C7: `as(s)` raises the configuration error at schema-construction time
exactly when the type tag of `s` is not one of the four supported primitive
tags — that fault lives on the construction channel, not in any parse
result — and for a supported tag it returns the `pre`-wrapped schema whose
parse is total delegation: on every input it applies the hook and then the
original schema's parse, with no parse-time fault. -/
theorem as_coercion_spec (s : SchemaExpr) :
    ((∃ s', as s = .ok s') ↔
      typeTag s ∈ ["number", "string", "boolean", "date"]) ∧
    (typeTag s ∉ ["number", "string", "boolean", "date"] →
      as s = .error ("Cannot coerce \"" ++ typeTag s ++ "\" to a primitive type")) ∧
    (∀ s', as s = .ok s' → ∃ hook, s' = .sPre hook s ∧
      ∀ d, parse s' d = parse s (hook d)) := by
  refine ⟨⟨?_, ?_⟩, ?_, ?_⟩
  · rintro ⟨s', hs'⟩
    simp only [as] at hs'
    split at hs' <;> simp_all
  · intro ht
    simp only [as]
    split <;> simp_all
  · intro ht
    simp only [as]
    split <;> simp_all
  · intro s' hs'
    simp only [as] at hs'
    split at hs' <;>
      first
        | (simp only [Except.ok.injEq] at hs'
           subst hs'
           exact ⟨_, rfl, fun d => by simp only [parse]⟩)
        | simp at hs'

/-- Witness for C7, at `as(num())`: construction succeeds with the
`tryNum`-wrapped schema, whose parse on every input is the hooked
delegation. -/
theorem as_coercion_spec_witness :
    ∃ hook, SchemaExpr.sPre tryNum (.sNum none) = .sPre hook (.sNum none) ∧
      ∀ d, parse (.sPre tryNum (.sNum none)) d = parse (.sNum none) (hook d) :=
  (as_coercion_spec (.sNum none)).2.2 (.sPre tryNum (.sNum none)) (by rfl)

/-- C8 counterexample: the claim that a failing step's `message` is always
the string the step returned is false — a step returning the empty string
hits the JS `||` fallback inside `err`, so `pipe(any(), step).parse(null)`
delivers the default message "Expected pipe, but got null", not "". -/
theorem pipe_empty_message_counterexample :
    ∃ e, parse (.sPipe .sAny [fun _ => .error ""]) .vNull = .error e ∧
      e.message ≠ "" ∧ e.message = "Expected pipe, but got null" := by
  refine ⟨err "pipe" .vNull (some ""), ?_, ?_, ?_⟩
  · simp [parse, runPipeline]
  · simp [err, getTypeOf] <;> decide
  · simp [err, getTypeOf] <;> decide

/-- C8 (amended): for an input that passes the schema's own parse, the pipe
schema threads the value through the steps in declared order, each step
receiving the previous step's success value; the first failing step
short-circuits the rest and yields the "pipe"-typed error whose `value` is
the value at the point of failure and whose `message` is the step's returned
string when that string is non-empty, the default message otherwise — as
expressed by the claim-side runner `pipeClaimRun`. -/
theorem pipe_parse_spec (c : SchemaExpr) (steps : List (Value → Except String Value))
    (v val : Value) (h : parse c v = .ok val) :
    parse (.sPipe c steps) v = pipeClaimRun steps val := by
  simp only [parse, h]
  exact runPipeline_eq_claim steps val

/-- Witness for C8: `pipe(str(), [ok-step, failing-step]).parse("hi")` equals
the claim-side runner on the value that passed the string schema. -/
theorem pipe_parse_spec_witness :
    parse (.sPipe (.sStr none) [fun x => .ok x, fun _ => .error "boom"]) (.vStr "hi") =
      pipeClaimRun [fun x => .ok x, fun _ => .error "boom"] (.vStr "hi") :=
  pipe_parse_spec (.sStr none) [fun x => .ok x, fun _ => .error "boom"]
    (.vStr "hi") (.vStr "hi") (by simp [parse])

/-- C9 (spec-modelled): `partial(schema)` wraps every property schema of an
object schema with the optional modifier: parsing an object in which any
subset of the declared keys is missing (read as nil) succeeds provided the
present keys pass, the missing keys contributing no value (the absent
optional); while a present (non-nil) key whose value fails its property
schema still fails the whole parse. -/
theorem partial_obj_spec (props : List (String × SchemaExpr)) (m : Option String)
    (fields : List (String × Value)) :
    ((∀ p ∈ props, (objGet fields p.1).isNil = false →
        ∃ r, parse p.2 (objGet fields p.1) = .ok r) →
      ∃ out, parse (partialObjSchema props m) (.vObj fields) = .ok (.vObj out) ∧
        out.length = props.length ∧
        (∀ j (hj : j < props.length) (hj' : j < out.length),
          (objGet fields (props.get ⟨j, hj⟩).1).isNil = true →
          out.get ⟨j, hj'⟩ = ((props.get ⟨j, hj⟩).1, .vOpt none))) ∧
    (∀ p ∈ props, (objGet fields p.1).isNil = false →
      (∃ e, parse p.2 (objGet fields p.1) = .error e) →
      ∃ e', parse (partialObjSchema props m) (.vObj fields) = .error e') := by
  constructor
  · intro hall
    have hforall : ∀ p' ∈ optionalizeProps props, ∃ r,
        parse p'.2 (objGet fields p'.1) = .ok r := by
      intro p' hp'
      obtain ⟨p, hp, rfl⟩ := List.mem_map.mp hp'
      simp only
      by_cases hnil : (objGet fields p.1).isNil
      · exact ⟨.vOpt none, by simp only [parse]; rw [if_pos hnil]⟩
      · obtain ⟨r, hr⟩ := hall p hp (by simpa using hnil)
        refine ⟨.vOpt (some r), ?_⟩
        simp only [parse]
        rw [if_neg hnil, hr]
    obtain ⟨out, hout⟩ := parseProps_ok_of_forall hforall
    obtain ⟨hlen, hpt⟩ := parseProps_ok_shape hout
    have hlen' : out.length = props.length := by
      rw [hlen, optionalizeProps_length]
    refine ⟨out, by simp only [partialObjSchema, parse]; rw [hout], hlen', ?_⟩
    intro j hj hj' hnil
    have hj2 : j < (optionalizeProps props).length := by
      rw [optionalizeProps_length]
      exact hj
    obtain ⟨hkey, hval⟩ := hpt j hj2 hj'
    rw [optionalizeProps_get props j hj hj2] at hkey hval
    simp only at hkey hval
    simp only [parse] at hval
    rw [if_pos hnil] at hval
    simp only [Except.ok.injEq] at hval
    exact Prod.ext_iff.mpr ⟨hkey, hval.symm⟩
  · rintro p hp hnil ⟨e, herr⟩
    cases hres : parse (partialObjSchema props m) (.vObj fields) with
    | error e' => exact ⟨e', rfl⟩
    | ok out =>
      exfalso
      simp only [partialObjSchema, parse] at hres
      split at hres
      next e' heq => simp at hres
      next out' heq =>
        obtain ⟨hlen, hpt⟩ := parseProps_ok_shape heq
        obtain ⟨⟨i, hi⟩, hgi⟩ := List.mem_iff_get.mp hp
        have hi2 : i < (optionalizeProps props).length := by
          rw [optionalizeProps_length]
          exact hi
        have hi' : i < out'.length := by
          rw [hlen, optionalizeProps_length]
          exact hi
        obtain ⟨hkey, hval⟩ := hpt i hi2 hi'
        rw [optionalizeProps_get props i hi hi2, hgi] at hval
        simp only at hval
        simp only [parse] at hval
        rw [if_neg (by simp [hnil])] at hval
        rw [herr] at hval
        simp at hval

/-- Witness for C9, at `partial(obj({name: str(), age: num()}))` applied to
`{name: "John"}` from the test suite: the missing `age` key is accepted,
contributing the absent optional value. -/
theorem partial_obj_spec_witness :
    ∃ out, parse (partialObjSchema [("name", .sStr none), ("age", .sNum none)] none)
        (.vObj [("name", .vStr "John")]) = .ok (.vObj out) ∧
      out.length = ([("name", SchemaExpr.sStr none), ("age", SchemaExpr.sNum none)]).length ∧
      (∀ j (hj : j < ([("name", SchemaExpr.sStr none), ("age", SchemaExpr.sNum none)]).length)
        (hj' : j < out.length),
        (objGet [("name", .vStr "John")]
          (([("name", SchemaExpr.sStr none), ("age", SchemaExpr.sNum none)]).get ⟨j, hj⟩).1).isNil = true →
        out.get ⟨j, hj'⟩ =
          ((([("name", SchemaExpr.sStr none), ("age", SchemaExpr.sNum none)]).get ⟨j, hj⟩).1,
            .vOpt none)) :=
  (partial_obj_spec [("name", .sStr none), ("age", .sNum none)] none
      [("name", .vStr "John")]).1
    (by
      intro p hp hnn
      rcases List.mem_cons.mp hp with h1 | h2
      · subst h1
        exact ⟨.vStr "John", by simp [parse, objGet]⟩
      · rcases List.mem_cons.mp h2 with h3 | h4
        · subst h3
          simp [objGet, Value.isNil] at hnn
        · simp at h4)

/-- C10: `enum(e).parse(x)` succeeds — returning `x` itself — exactly when
`x` is one of the own-property values of the runtime object `e` (compared as
`Array.prototype.includes` does); in particular, for the numeric TypeScript
enum `enum User { Admin, User }` the runtime object carries reverse
mappings, so the member names "Admin" and "User" are accepted as strings in
addition to the numeric values 0 and 1, while a non-member is rejected. -/
theorem enum_parse_spec :
    (∀ e m x, (∃ r, parse (enumSchemaOf e m) x = .ok r) ↔
      parse (enumSchemaOf e m) x = .ok x) ∧
    (∀ e m x, parse (enumSchemaOf e m) x = .ok x ↔
      ∃ w ∈ jsObjectValues e, sameValueZero w x = true) ∧
    (parse (enumSchemaOf userEnumRuntime none) (.vStr "Admin") = .ok (.vStr "Admin")) ∧
    (parse (enumSchemaOf userEnumRuntime none) (.vStr "User") = .ok (.vStr "User")) ∧
    (parse (enumSchemaOf userEnumRuntime none) (.vNum 0) = .ok (.vNum 0)) ∧
    (parse (enumSchemaOf userEnumRuntime none) (.vNum 1) = .ok (.vNum 1)) ∧
    (∃ e', parse (enumSchemaOf userEnumRuntime none) (.vStr "Superuser") = .error e') := by
  have hbase : ∀ e m x, parse (enumSchemaOf e m) x =
      if (jsObjectValues e).any (fun w => sameValueZero w x) then .ok x
      else .error (err "enum" x m) := by
    intro e m x
    simp only [enumSchemaOf, parse]
  refine ⟨?_, ?_, ?_, ?_, ?_, ?_, ?_⟩
  · intro e m x
    rw [hbase]
    split
    · simp
    · simp
  · intro e m x
    rw [hbase]
    split
    next hany =>
      simp only [List.any_eq_true] at hany
      exact iff_of_true rfl hany
    next hany =>
      constructor
      · intro h
        simp at h
      · intro hex
        exact absurd (List.any_eq_true.mpr hex) hany
  · rw [hbase]
    simp [userEnumRuntime, jsObjectValues, sameValueZero]
  · rw [hbase]
    simp [userEnumRuntime, jsObjectValues, sameValueZero]
  · rw [hbase]
    simp [userEnumRuntime, jsObjectValues, sameValueZero]
  · rw [hbase]
    simp [userEnumRuntime, jsObjectValues, sameValueZero]
  · refine ⟨err "enum" (.vStr "Superuser") none, ?_⟩
    rw [hbase]
    rw [if_neg (by simp [userEnumRuntime, jsObjectValues, sameValueZero] <;> decide)]

end OxiSchema
